import Mathlib

/-!
Verification development for the hera_cal calibration core.

Shallow embedding of the relevant parts of the repository:
  - polarization-string helpers (hera_cal/utils.py: split_pol, conj_pol,
    together with the pyuvdata polstr2num / jstr2num tables they call),
  - the chi-square accumulator (hera_cal/utils.py: chisq),
  - the per-antenna flag synthesis (hera_cal/utils.py: synthesize_ant_flags),
  - the HERAData waterfall slice accessor (hera_cal/io.py: HERAData._get_slice),
  - the FirstCal redundant design matrix (heracal/firstcal.py:
    FirstCalRedundantInfo.init_from_reds),
  - the AbsCal gain assembly (hera_cal/abscal.py: AbsCal.make_gains).

Modelling conventions used throughout:
  - numpy waterfall arrays (time by frequency) become functions from two
    natural-number indices; array shapes are not modelled, broadcasting of a
    scalar over an array is modelled pointwise;
  - Python dictionaries become association lists when iteration order
    matters (a dict is iterated at most once here) and become functions into
    Option when only lookup matters; Python dict keys are unique, so a loop
    `for k in d.keys(): ... d[k]` is folded directly over the pairs;
  - a raised Python exception becomes the none case of Option, or an
    Except.error carrying a message that identifies the raise site;
  - float arithmetic is modelled exactly: decimal literals such as 1e-10
    are the corresponding rationals, complex numbers are Lean Complex.
-/

namespace HeraCal

def assocZ (k : List Char) : List (List Char × ℤ) → Option ℤ
  | [] => none
  | (key, v) :: rest => if k = key then some v else assocZ k rest

/-- The pyuvdata polarization-string table (keys pre-lowercased), mapping
visibility polarization strings to polarization numbers: pseudo-Stokes and
Stokes are positive, circular and linear polarizations are negative. -/
def polTable : List (List Char × ℤ) :=
  [ (['p', 'i'], 1), (['p', 'q'], 2), (['p', 'u'], 3), (['p', 'v'], 4),
    (['i'], 1), (['q'], 2), (['u'], 3), (['v'], 4),
    (['r', 'r'], -1), (['l', 'l'], -2), (['r', 'l'], -3), (['l', 'r'], -4),
    (['x', 'x'], -5), (['y', 'y'], -6), (['x', 'y'], -7), (['y', 'x'], -8) ]

/-- pyuvdata.utils.polstr2num: lowercase the input string and look it up in
the polarization table; an unknown string raises (none). -/
def polstr2num (pol : List Char) : Option ℤ :=
  assocZ (pol.map Char.toLower) polTable

/-- The pyuvdata single-character antenna (Jones) polarization table. -/
def jonesTable : List (List Char × ℤ) :=
  [ (['x'], -5), (['y'], -6), (['r'], -1), (['l'], -2) ]

/-- pyuvdata.utils.jstr2num restricted to the single characters that
split_pol feeds it; an antenna polarization is identified by its Jones
number (the string and number forms are in bijection via jnum2str). -/
def jstr2num (c : Char) : Option ℤ :=
  assocZ ([c].map Char.toLower) jonesTable

/-- hera_cal.utils.split_pol: split a visibility polarization string into
the two antenna polarizations; raises (none) for Stokes and pseudo-Stokes
strings (positive polarization number) and for unknown strings. -/
def split_pol (pol : List Char) : Option (ℤ × ℤ) :=
  match polstr2num pol with
  | none => none
  | some n =>
    if n > 0 then none
    else
      match pol with
      | [c1, c2] =>
        match jstr2num c1, jstr2num c2 with
        | some a, some b => some (a, b)
        | _, _ => none
      | _ => none

/-- hera_cal.utils.conj_pol: the polarization of the reversed baseline.
Stokes and pseudo-Stokes strings (positive polarization number) are
returned unchanged, others are reversed; an unknown string raises (none). -/
def conj_pol (pol : List Char) : Option (List Char) :=
  match polstr2num pol with
  | none => none
  | some n => some (if n > 0 then pol else pol.reverse)

/-! ## HERAData waterfall slice accessor (hera_cal/io.py, _get_slice) -/

/-- HERAData._get_slice for an (ant1, ant2, pol) key, over an arbitrary
array element type with its elementwise conjugation conjf (the source
slices data, flag and nsample arrays alike, and np.conj acts elementwise).
bltSlices is the precomputed _blt_slices dict: an antenna pair maps to the
list of baseline-time rows holding that pair. polIdx is the precomputed
_polnum_indices dict from polarization number to position on the
polarization axis. da is the data_array with its length-one axis dropped,
indexed by (baseline-time row, frequency, polarization index); nf is Nfreq.
A failed dict lookup (KeyError) in the first branch selects the conjugated
fallback branch, which looks up the reversed antenna pair and the conjugate
polarization; a failure there propagates (none). The string-key and
pair-key forms of the source function recurse into this case and are not
modelled separately. -/
def get_slice_blpol {α : Type} (conjf : α → α)
    (bltSlices : ℕ × ℕ → Option (List ℕ)) (polIdx : ℤ → Option ℕ)
    (da : ℕ → ℕ → ℕ → α) (nf : ℕ) (key : ℕ × ℕ × List Char) :
    Option (List (List α)) :=
  match bltSlices (key.1, key.2.1), (polstr2num key.2.2).bind polIdx with
  | some rows, some p =>
    some (rows.map fun b => (List.range nf).map fun f => da b f p)
  | _, _ =>
    match bltSlices (key.2.1, key.1),
        ((conj_pol key.2.2).bind fun q => (polstr2num q).bind polIdx) with
    | some rows, some p =>
      some (rows.map fun b => (List.range nf).map fun f => conjf (da b f p))
    | _, _ => none

/-! ## Per-antenna flag synthesis (hera_cal/utils.py, synthesize_ant_flags) -/

/-- A boolean waterfall (time by frequency). Shapes are not modelled: the
array of shape (Ntimes, Nfreqs) becomes a function, with the shape passed
separately where the source reads it off the first flag array. -/
abbrev BoolW := ℕ → ℕ → Bool

/-- An antenna-polarization key: antenna number and Jones polarization
number (standing for keys like (1, x)). -/
abbrev APKey := ℕ × ℤ

/-- A baseline key as used by the flag DataContainer. -/
abbrev BLKey := ℕ × ℕ × List Char

/-- An entry of the flag container after split_pol has been applied to its
key: the two antenna-polarization keys and the flag waterfall. -/
abbrev FlagEntry := APKey × APKey × BoolW

/-- Application of split_pol to every key of the flag container (the source
evaluates split_pol inside each of its loops; a raise from any key
propagates out of the function, modelled as none). -/
def splitKeys : List (BLKey × BoolW) → Option (List FlagEntry)
  | [] => some []
  | e :: rest =>
    match split_pol e.1.2.2, splitKeys rest with
    | some p, some L => some (((e.1.1, p.1), (e.1.2.1, p.2), e.2) :: L)
    | _, _ => none

/-- np.all over a flag waterfall of shape (Nt, Nf). -/
def allFlagged (Nt Nf : ℕ) (w : BoolW) : Bool :=
  decide (∀ t < Nt, ∀ f < Nf, w t f = true)

/-- np.isclose with its default tolerances rtol 1e-5 and atol 1e-8,
modelled exactly over the rationals. The float64 evaluation of the source
can disagree with this exact model only for inputs within a few 1e-16 of
the tolerance boundary (the rounding scale of doubles near these
magnitudes); every concrete input this development evaluates isclose at
clears the boundary by at least 1e-11, where the two agree. -/
def isclose (a b : ℚ) : Bool :=
  decide (|a - b| ≤ 1 / 10 ^ 8 + |b| / 10 ^ 5)

/-- The threshold actually compared against: a threshold within isclose
tolerance of 1.0 is reduced by 1e-10 before use. -/
def effThreshold (t : ℚ) : ℚ := if isclose t 1 then t - 1 / 10 ^ 10 else t

/-- The is_excluded dict: an antenna polarization is excluded (dead) unless
some visibility containing it is not completely flagged. -/
def is_excluded (Nt Nf : ℕ) (L : List FlagEntry) (ap : APKey) : Bool :=
  !(L.any fun e =>
    (!allFlagged Nt Nf e.2.2) && (decide (e.1 = ap) || decide (e.2.1 = ap)))

/-- The counting condition of the accumulation loop: both end antenna
polarizations of the visibility are not excluded. -/
def counted (excl : APKey → Bool) (e : FlagEntry) : Bool :=
  !excl e.1 && !excl e.2.1

/-- ant_Nvis: each counted visibility adds one per end matching ap. -/
def countNvis (excl : APKey → Bool) (L : List FlagEntry) (ap : APKey) : ℕ :=
  match L with
  | [] => 0
  | e :: rest =>
    (if counted excl e then
      (if e.1 = ap then 1 else 0) + (if e.2.1 = ap then 1 else 0)
    else 0) + countNvis excl rest ap

/-- ant_Nflag: each counted visibility adds its flag indicator at each
pixel, once per end matching ap. -/
def countNflag (excl : APKey → Bool) (L : List FlagEntry) (ap : APKey)
    (t f : ℕ) : ℚ :=
  match L with
  | [] => 0
  | e :: rest =>
    (if counted excl e then
      ((if e.1 = ap then 1 else 0) + (if e.2.1 = ap then 1 else 0)) *
        (if e.2.2 t f then 1 else 0)
    else 0) + countNflag excl rest ap t f

/-- The final loop of synthesize_ant_flags, building the output flag
waterfall of one antenna polarization from the exclusion classification
and the accumulated counts: an excluded antenna polarization gets an
all-True waterfall; otherwise the flag fraction, with a zero visibility
count replaced by 1e-10 to avoid division by zero, is compared against
the (already adjusted) threshold. -/
def build_ant_flags (excl : APKey → Bool) (nvis : APKey → ℕ)
    (nflag : APKey → ℕ → ℕ → ℚ) (thr : ℚ) (ap : APKey) : BoolW :=
  if excl ap then fun _ _ => true
  else fun t f =>
    decide (nflag ap t f /
      (if nvis ap = 0 then 1 / 10 ^ 10 else (nvis ap : ℚ)) > thr)

/-- hera_cal.utils.synthesize_ant_flags: none models the failed assertion
on a threshold outside the closed unit interval (and a split_pol raise on
a malformed key). The output dict maps each antenna polarization occurring
in the keys to its synthesized flag waterfall. -/
def synthesize_ant_flags (Nt Nf : ℕ) (flags : List (BLKey × BoolW))
    (threshold : ℚ) : Option (APKey → Option BoolW) :=
  if 0 ≤ threshold ∧ threshold ≤ 1 then
    (splitKeys flags).map fun L => fun ap =>
      if L.any (fun e => decide (e.1 = ap) || decide (e.2.1 = ap)) then
        some (build_ant_flags (is_excluded Nt Nf L)
          (countNvis (is_excluded Nt Nf L) L)
          (countNflag (is_excluded Nt Nf L) L)
          (effThreshold threshold) ap)
      else none
  else none

/-! ### Flag synthesis: the monotonicity counterexample construction

A family of flag containers on one antenna 0 with shape (1, 2): m
visibilities flagged in channel 0 only, plus one entirely unflagged
visibility. No antenna is dead, and antenna 0 has flag fraction
m / (m + 1) at pixel (0, 0). -/

/-- Waterfall flagged in frequency channel 0 only. -/
def cexW1 : BoolW := fun _ f => decide (f = 0)

/-- Entirely unflagged waterfall. -/
def cexW0 : BoolW := fun _ _ => false

/-- The flag container of the counterexample family. -/
def bigFlags (m : ℕ) : List (BLKey × BoolW) :=
  ((List.range m).map fun k => ((0, k + 1, ['x', 'x']), cexW1)) ++
    [((0, m + 1, ['x', 'x']), cexW0)]

/-- The counterexample container after key splitting. -/
def bigL (m : ℕ) : List FlagEntry :=
  ((List.range m).map fun k =>
      (((0 : ℕ), (-5 : ℤ)), ((k + 1 : ℕ), (-5 : ℤ)), cexW1)) ++
    [(((0 : ℕ), (-5 : ℤ)), ((m + 1 : ℕ), (-5 : ℤ)), cexW0)]

/-! ## Chi-square accumulator (hera_cal/utils.py, chisq) -/

/-- A complex visibility waterfall. -/
abbrev VisW := ℕ → ℕ → ℂ

/-- A real waterfall (weights, chi-square values). -/
abbrev RealW := ℕ → ℕ → ℝ

/-- An integer waterfall (observation counts). -/
abbrev IntW := ℕ → ℕ → ℤ

/-- The chisq accumulator container: a plain waterfall, or, in
split_by_antpol mode, a dict keyed by antenna polarization number. -/
def ChiT : Bool → Type
  | false => RealW
  | true => ℤ → Option RealW

/-- The nObs accumulator container, by split_by_antpol mode. -/
def NObsT : Bool → Type
  | false => IntW
  | true => ℤ → Option IntW

/-- The fresh chisq container: np.zeros of the data shape, or an empty
dict (array shape bookkeeping is not modelled). -/
def initChi : (split : Bool) → ChiT split
  | false => fun _ _ => 0
  | true => fun _ => none

/-- The fresh nObs container. -/
def initNObs : (split : Bool) → NObsT split
  | false => fun _ _ => 0
  | true => fun _ => none

/-- Dict assignment d[k] = v as function update. -/
def updMap {κ ν : Type} [DecidableEq κ] (g : κ → Option ν) (k : κ) (v : ν) :
    κ → Option ν :=
  fun y => if y = k then some v else g y

/-- The ValueError message for a half-supplied chisq / nObs pair. -/
def pairMsg1 : String :=
  "Both chisq and nObs must be specified or nor neither can be."

/-- The ValueError message for a half-supplied per-antenna pair. -/
def pairMsg2 : String :=
  "Both chisq_per_ant and nObs_per_ant must be specified or nor neither can be."

/-- The ValueError raise site inside split_pol (the source message also
carries the polarization string). -/
def splitPolMsg : String :=
  "Unable to split Stokes or pseudo-Stokes polarization"

/-- The assert statements pairing the keys of chisq with nObs and of
chisq_per_ant with nObs_per_ant. -/
def assertMsg : String := "AssertionError"

/-- One accumulation into the overall chisq / nObs containers; in
split_by_antpol mode the entry for the antenna polarization is created on
first touch, and asserts pair the key sets of the two dicts. -/
def chisqMainAcc : (split : Bool) → ChiT split → NObsT split → ℤ →
    RealW → IntW → Except String (ChiT split × NObsT split)
  | false, c, n, _, ch, ob =>
    .ok (fun t f => c t f + ch t f, fun t f => n t f + ob t f)
  | true, c, n, ap, ch, ob =>
    match c ap, n ap with
    | some ca, some na =>
      .ok (updMap c ap (fun t f => ca t f + ch t f),
        updMap n ap (fun t f => na t f + ob t f))
    | none, none => .ok (updMap c ap ch, updMap n ap ob)
    | _, _ => .error assertMsg

/-- One accumulation into the per-antenna dicts for one antenna key. -/
def perAntAcc (p : APKey → Option RealW) (q : APKey → Option IntW)
    (ant : APKey) (ch : RealW) (ob : IntW) :
    Except String ((APKey → Option RealW) × (APKey → Option IntW)) :=
  match p ant, q ant with
  | some ca, some na =>
    .ok (updMap p ant (fun t f => ca t f + ch t f),
      updMap q ant (fun t f => na t f + ob t f))
  | none, none => .ok (updMap p ant ch, updMap q ant ob)
  | _, _ => .error assertMsg

/-- The full accumulator state: chisq, nObs, chisq_per_ant, nObs_per_ant. -/
abbrev ChisqState (split : Bool) :=
  ChiT split × NObsT split × (APKey → Option RealW) × (APKey → Option IntW)

/-- The three accumulations performed for one baseline, in loop order:
the overall containers keyed (in split mode) by the first antenna
polarization, then the per-antenna dicts for each end antenna. -/
def chisqAccumulate (split : Bool) (st : ChisqState split) (ap1 : ℤ)
    (ant1 ant2 : APKey) (ch : RealW) (ob : IntW) :
    Except String (ChisqState split) :=
  match chisqMainAcc split st.1 st.2.1 ap1 ch ob with
  | .error s => .error s
  | .ok (c, n) =>
    match perAntAcc st.2.2.1 st.2.2.2 ant1 ch ob with
    | .error s => .error s
    | .ok (p1, q1) =>
      match perAntAcc p1 q1 ant2 ch ob with
      | .error s => .error s
      | .ok (p2, q2) => .ok (c, n, p2, q2)

/-- The loop body of chisq for one baseline of the data container: split
the polarization (a Stokes key raises); skip the baseline when it is
missing from model or weights, or cross-polarized in split mode; multiply
supplied gains into the model and gain flags into the weights; accumulate
the absolute residual times weight (the source takes np.abs of the
residual without squaring it) and count observations with positive
weight. -/
noncomputable def chisqStep (split : Bool) (model : BLKey → Option VisW)
    (data_wgts : BLKey → Option RealW) (gains : Option (APKey → VisW))
    (gain_flags : Option (APKey → BoolW)) (st : ChisqState split)
    (e : BLKey × VisW) : Except String (ChisqState split) :=
  match split_pol e.1.2.2 with
  | none => .error splitPolMsg
  | some (ap1, ap2) =>
    match model e.1, data_wgts e.1 with
    | some mbl, some wbl =>
      if split ∧ ap1 ≠ ap2 then .ok st
      else
        let ant1 : APKey := (e.1.1, ap1)
        let ant2 : APKey := (e.1.2.1, ap2)
        let model_here : VisW :=
          match gains with
          | some g => fun t f =>
              mbl t f * g ant1 t f * (starRingEnd ℂ) (g ant2 t f)
          | none => mbl
        let wgts : RealW :=
          match gain_flags with
          | some gf => fun t f =>
              wbl t f * (if gf ant1 t f then 0 else 1) *
                (if gf ant2 t f then 0 else 1)
          | none => wbl
        let chisq_here : RealW :=
          fun t f => Complex.abs (model_here t f - e.2 t f) * wgts t f
        let obs_here : IntW := fun t f => if 0 < wgts t f then 1 else 0
        chisqAccumulate split st ap1 ant1 ant2 chisq_here obs_here
    | _, _ => .ok st

/-- The loop over the data container keys (Python dict keys are unique, so
the loop is folded over the key-value pairs; a raise aborts the loop). -/
noncomputable def chisqFold (split : Bool) (model : BLKey → Option VisW)
    (data_wgts : BLKey → Option RealW) (gains : Option (APKey → VisW))
    (gain_flags : Option (APKey → BoolW)) :
    List (BLKey × VisW) → Except String (ChisqState split) →
      Except String (ChisqState split)
  | [], acc => acc
  | e :: rest, acc =>
    chisqFold split model data_wgts gains gain_flags rest
      (acc.bind fun s => chisqStep split model data_wgts gains gain_flags s e)

/-- hera_cal.utils.chisq. Each optional accumulator pair must be supplied
together or not at all (ValueError with the message of the source
otherwise, raised before any accumulation); a fresh start uses zero
waterfalls or empty dicts. Returns the four accumulators. -/
noncomputable def chisq (split : Bool) (data : List (BLKey × VisW))
    (model : BLKey → Option VisW) (data_wgts : BLKey → Option RealW)
    (gains : Option (APKey → VisW)) (gain_flags : Option (APKey → BoolW))
    (chisq0 : Option (ChiT split)) (nObs0 : Option (NObsT split))
    (chisq_per_ant0 : Option (APKey → Option RealW))
    (nObs_per_ant0 : Option (APKey → Option IntW)) :
    Except String (ChisqState split) :=
  match chisq0, nObs0 with
  | none, some _ => .error pairMsg1
  | some _, none => .error pairMsg1
  | none, none =>
    match chisq_per_ant0, nObs_per_ant0 with
    | none, some _ => .error pairMsg2
    | some _, none => .error pairMsg2
    | none, none =>
      chisqFold split model data_wgts gains gain_flags data
        (.ok (initChi split, initNObs split, fun _ => none, fun _ => none))
    | some p, some q =>
      chisqFold split model data_wgts gains gain_flags data
        (.ok (initChi split, initNObs split, p, q))
  | some c, some n =>
    match chisq_per_ant0, nObs_per_ant0 with
    | none, some _ => .error pairMsg2
    | some _, none => .error pairMsg2
    | none, none =>
      chisqFold split model data_wgts gains gain_flags data
        (.ok (c, n, fun _ => none, fun _ => none))
    | some p, some q =>
      chisqFold split model data_wgts gains gain_flags data
        (.ok (c, n, p, q))

/-! ## FirstCal redundant design matrix (heracal/firstcal.py,
FirstCalRedundantInfo.init_from_reds) -/

/-- A baseline as an antenna pair. -/
abbrev Bl := ℕ × ℕ

/-- All position-ordered pairs of baselines within one redundant group:
bl1 at each position paired with every bl2 at a later position (the
comprehension for i, bl1 in enumerate(gp) for bl2 in gp[i+1:]). -/
def pairsOf : List Bl → List (Bl × Bl)
  | [] => []
  | x :: xs => (xs.map fun y => (x, y)) ++ pairsOf xs

/-- bl_pairs: the baseline pairs of every redundant group, in group
order. -/
def blPairs (reds : List (List Bl)) : List (Bl × Bl) :=
  reds.flatMap pairsOf

/-- The numpy in-place update A[i] += v on one row (rows are built
in-bounds by the source; List.set ignores an out-of-range index). -/
def addAt (row : List ℤ) (i : ℕ) (v : ℤ) : List ℤ :=
  row.set i (row.getD i 0 + v)

/-- The design-matrix row of one baseline pair ((i,j), (k,l)): starting
from a zero row over the nant antenna columns, add +1 at the column of
antenna i, -1 at j, -1 at k and +1 at l, where antIndex is the omnical
ant_index map from antenna number to column (blpair2antind). -/
def pairRow (antIndex : ℕ → ℕ) (nant : ℕ) (bp : Bl × Bl) : List ℤ :=
  addAt (addAt (addAt (addAt (List.replicate nant 0)
    (antIndex bp.1.1) 1) (antIndex bp.1.2) (-1)) (antIndex bp.2.1) (-1))
    (antIndex bp.2.2) 1

/-- The coefficient matrix A of init_from_reds: one row per baseline
pair. -/
def designA (antIndex : ℕ → ℕ) (nant : ℕ) (reds : List (List Bl)) :
    List (List ℤ) :=
  (blPairs reds).map (pairRow antIndex nant)

/-! ## AbsCal gain assembly (hera_cal/abscal.py, AbsCal.make_gains) -/

/-- The AbsCal solution state as make_gains reads it: each calibration
step stores its solution on the object when run, so an unsolved component
is an absent attribute (none), whose AttributeError the source catches.
Arrays over (time, frequency, polarization) become functions of three
indices; the antenna axis added by np.newaxis broadcasting is explicit in
the result. antpos holds the first two (East, North) columns of the
centered antenna position array used by the phase-slope einsum. -/
structure AbsCalState where
  gain_amp : Option (ℕ → ℕ → ℕ → ℝ)
  gain_psi : Option (ℕ → ℕ → ℕ → ℝ)
  gain_phi : Option (Fin 2 → ℕ → ℕ → ℕ → ℝ)
  antpos : ℕ → Fin 2 → ℝ

/-- AbsCal.make_gains: start from a complex array of ones and multiply in
each solved component in order, treating an absent component as an
identity factor: the amplitude broadcast over antennas, the negated
complex exponential of the overall phase, and the negated complex
exponential of the phase slope dotted into the antenna position (the
einsum ijkl, hi -> hjkl over the East/North axis). -/
noncomputable def make_gains (s : AbsCalState) (a t f p : ℕ) : ℂ :=
  let g0 : ℂ := 1
  let g1 : ℂ :=
    match s.gain_amp with
    | some amp => g0 * (amp t f p : ℂ)
    | none => g0
  let g2 : ℂ :=
    match s.gain_psi with
    | some psi => g1 * Complex.exp (-Complex.I * (psi t f p : ℂ))
    | none => g1
  match s.gain_phi with
  | some phi => g2 * Complex.exp (-Complex.I *
      ((∑ d : Fin 2, phi d t f p * s.antpos a d : ℝ) : ℂ))
  | none => g2

end HeraCal

namespace HeraCal

/-! ### Facts about the polarization table -/

theorem assocZ_mem (k : List Char) (n : ℤ) :
    ∀ table, assocZ k table = some n → (k, n) ∈ table := by
  intro table
  induction table with
  | nil => intro h; exact absurd h (by simp [assocZ])
  | cons hd tl ih =>
    intro h
    rw [assocZ] at h
    by_cases hk : k = hd.1
    · rw [show hd = (hd.1, hd.2) from rfl, if_pos hk] at h
      injection h with hh
      simp [hk, ← hh]
    · rw [show hd = (hd.1, hd.2) from rfl, if_neg hk] at h
      exact List.mem_cons_of_mem _ (ih h)

theorem assocZ_polTable_cases (l : List Char) (n : ℤ)
    (h : assocZ l polTable = some n) (hneg : n < 0) :
    (l = ['r', 'r'] ∧ n = -1) ∨ (l = ['l', 'l'] ∧ n = -2) ∨
    (l = ['r', 'l'] ∧ n = -3) ∨ (l = ['l', 'r'] ∧ n = -4) ∨
    (l = ['x', 'x'] ∧ n = -5) ∨ (l = ['y', 'y'] ∧ n = -6) ∨
    (l = ['x', 'y'] ∧ n = -7) ∨ (l = ['y', 'x'] ∧ n = -8) := by
  have hmem := assocZ_mem l n polTable h
  simp only [polTable, List.mem_cons, List.not_mem_nil, or_false,
    Prod.mk.injEq] at hmem
  rcases hmem with ⟨h1, h2⟩ | ⟨h1, h2⟩ | ⟨h1, h2⟩ | ⟨h1, h2⟩ | ⟨h1, h2⟩ |
    ⟨h1, h2⟩ | ⟨h1, h2⟩ | ⟨h1, h2⟩ | ⟨h1, h2⟩ | ⟨h1, h2⟩ | ⟨h1, h2⟩ |
    ⟨h1, h2⟩ | ⟨h1, h2⟩ | ⟨h1, h2⟩ | ⟨h1, h2⟩ | ⟨h1, h2⟩ <;> subst h2
  · exact absurd hneg (by decide)
  · exact absurd hneg (by decide)
  · exact absurd hneg (by decide)
  · exact absurd hneg (by decide)
  · exact absurd hneg (by decide)
  · exact absurd hneg (by decide)
  · exact absurd hneg (by decide)
  · exact absurd hneg (by decide)
  · exact Or.inl ⟨h1, rfl⟩
  · exact Or.inr (Or.inl ⟨h1, rfl⟩)
  · exact Or.inr (Or.inr (Or.inl ⟨h1, rfl⟩))
  · exact Or.inr (Or.inr (Or.inr (Or.inl ⟨h1, rfl⟩)))
  · exact Or.inr (Or.inr (Or.inr (Or.inr (Or.inl ⟨h1, rfl⟩))))
  · exact Or.inr (Or.inr (Or.inr (Or.inr (Or.inr (Or.inl ⟨h1, rfl⟩)))))
  · exact Or.inr (Or.inr (Or.inr (Or.inr (Or.inr (Or.inr (Or.inl ⟨h1, rfl⟩))))))
  · exact Or.inr (Or.inr (Or.inr (Or.inr (Or.inr (Or.inr (Or.inr ⟨h1, rfl⟩))))))

theorem map_toLower_reverse (l : List Char) :
    l.reverse.map Char.toLower = (l.map Char.toLower).reverse := by
  simp [List.map_reverse]

/-- For a polarization string with negative polarization number, the
reversed string is again in the table with a negative number. -/
theorem polstr2num_reverse_neg (pol : List Char) (n : ℤ)
    (h : polstr2num pol = some n) (hneg : n < 0) :
    ∃ m, polstr2num pol.reverse = some m ∧ m < 0 := by
  have hc := assocZ_polTable_cases (pol.map Char.toLower) n h hneg
  unfold polstr2num
  rw [map_toLower_reverse]
  rcases hc with ⟨he, _⟩ | ⟨he, _⟩ | ⟨he, _⟩ | ⟨he, _⟩ | ⟨he, _⟩ | ⟨he, _⟩ |
    ⟨he, _⟩ | ⟨he, _⟩ <;> rw [he]
  · exact ⟨-1, by decide, by decide⟩
  · exact ⟨-2, by decide, by decide⟩
  · exact ⟨-4, by decide, by decide⟩
  · exact ⟨-3, by decide, by decide⟩
  · exact ⟨-5, by decide, by decide⟩
  · exact ⟨-6, by decide, by decide⟩
  · exact ⟨-8, by decide, by decide⟩
  · exact ⟨-7, by decide, by decide⟩

/-- Table entries are never zero, so a non-positive number is negative. -/
theorem polstr2num_ne_zero (pol : List Char) (n : ℤ)
    (h : polstr2num pol = some n) : n ≠ 0 := by
  have hmem := assocZ_mem (pol.map Char.toLower) n polTable h
  simp only [polTable, List.mem_cons, List.not_mem_nil, or_false,
    Prod.mk.injEq] at hmem
  rcases hmem with ⟨h1, h2⟩ | ⟨h1, h2⟩ | ⟨h1, h2⟩ | ⟨h1, h2⟩ | ⟨h1, h2⟩ |
    ⟨h1, h2⟩ | ⟨h1, h2⟩ | ⟨h1, h2⟩ | ⟨h1, h2⟩ | ⟨h1, h2⟩ | ⟨h1, h2⟩ |
    ⟨h1, h2⟩ | ⟨h1, h2⟩ | ⟨h1, h2⟩ | ⟨h1, h2⟩ | ⟨h1, h2⟩ <;> subst h2 <;>
    decide

/-- conj_pol applied twice is the identity on every string the table knows. -/
theorem conj_pol_conj_pol (pol : List Char) (n : ℤ)
    (h : polstr2num pol = some n) :
    (conj_pol pol).bind conj_pol = some pol := by
  rcases lt_trichotomy n 0 with hneg | hzero | hpos
  · obtain ⟨m, hm, hmneg⟩ := polstr2num_reverse_neg pol n h hneg
    have h1 : ¬ n > 0 := by omega
    have h2 : ¬ m > 0 := by omega
    simp [conj_pol, h, hm, h1, h2, List.reverse_reverse]
  · exact absurd hzero (polstr2num_ne_zero pol n h)
  · simp [conj_pol, h, hpos]

/-- C9. conj_pol is an involution on visibility polarization strings: a
linear-polarization string (negative polarization number) is reversed, so a
second application restores it, while a Stokes or pseudo-Stokes string
(positive polarization number) is returned unchanged. -/
theorem conj_pol_involution (pol : List Char) (n : ℤ)
    (h : polstr2num pol = some n) :
    (n < 0 → conj_pol pol = some pol.reverse ∧
      (conj_pol pol).bind conj_pol = some pol) ∧
    (0 < n → conj_pol pol = some pol) := by
  refine ⟨fun hneg => ⟨?_, conj_pol_conj_pol pol n h⟩, fun hpos => ?_⟩
  · have h1 : ¬ n > 0 := by omega
    simp [conj_pol, h, h1]
  · simp [conj_pol, h, hpos]

/-- Witness for C9 at the concrete linear polarization string xy. -/
theorem conj_pol_involution_witness :
    polstr2num ['x', 'y'] = some (-7) ∧ (-7 : ℤ) < 0 ∧
    (conj_pol ['x', 'y'] = some ['y', 'x'] ∧
      (conj_pol ['x', 'y']).bind conj_pol = some ['x', 'y']) :=
  ⟨by decide, by decide,
    (conj_pol_involution ['x', 'y'] (-7) (by decide)).1 (by decide)⟩

/-- C2. Conjugate symmetry of the slice accessor: when the data for an
(i, j, pol) key is stored in the forward orientation only (the blt-slice
dict knows (i, j) but not (j, i)) and the polarization is on file, looking
up the reversed key (j, i, conj_pol pol) returns the elementwise complex
conjugate of the waterfall returned by the forward lookup. -/
theorem get_slice_conj_symm
    (bltSlices : ℕ × ℕ → Option (List ℕ)) (polIdx : ℤ → Option ℕ)
    (da : ℕ → ℕ → ℕ → ℂ) (nf : ℕ) (i j : ℕ) (pol pol2 : List Char)
    (n : ℤ) (rows : List ℕ) (k : ℕ)
    (hpol : polstr2num pol = some n)
    (hfwd : bltSlices (i, j) = some rows)
    (hrev : bltSlices (j, i) = none)
    (hidx : polIdx n = some k)
    (hconj : conj_pol pol = some pol2) :
    get_slice_blpol (starRingEnd ℂ) bltSlices polIdx da nf (j, i, pol2) =
      (get_slice_blpol (starRingEnd ℂ) bltSlices polIdx da nf
        (i, j, pol)).map (List.map (List.map (starRingEnd ℂ))) := by
  have hback : conj_pol pol2 = some pol := by
    have h2 := conj_pol_conj_pol pol n hpol
    rwa [hconj, Option.some_bind] at h2
  have hbind : (polstr2num pol).bind polIdx = some k := by
    rw [hpol, Option.some_bind, hidx]
  simp only [get_slice_blpol, hfwd, hrev, hbind, hback, Option.some_bind]
  simp [List.map_map, Function.comp]

/-- Witness for C2 at concrete dictionaries holding one blt row of one
polarization for antenna pair (0, 1). -/
theorem get_slice_conj_symm_witness :
    (fun p : ℕ × ℕ => if p = (0, 1) then some [0] else none) (1, 0) =
        none ∧
    get_slice_blpol (starRingEnd ℂ)
        (fun p => if p = (0, 1) then some [0] else none)
        (fun z => if z = -5 then some 0 else none)
        (fun _ _ _ => Complex.I) 1 (1, 0, ['x', 'x']) =
      (get_slice_blpol (starRingEnd ℂ)
        (fun p => if p = (0, 1) then some [0] else none)
        (fun z => if z = -5 then some 0 else none)
        (fun _ _ _ => Complex.I) 1 (0, 1, ['x', 'x'])).map
        (List.map (List.map (starRingEnd ℂ))) :=
  ⟨by decide,
    get_slice_conj_symm _ _ _ 1 0 1 ['x', 'x'] ['x', 'x'] (-5) [0] 0
      (by decide) (by decide) (by decide) (by decide) (by decide)⟩

/-! ### Flag synthesis: accumulated counts and the output loop -/

theorem countNflag_eq_zero (excl : APKey → Bool) (L : List FlagEntry)
    (ap : APKey) (t f : ℕ) (hnv : countNvis excl L ap = 0) :
    countNflag excl L ap t f = 0 := by
  induction L with
  | nil => simp [countNflag]
  | cons e rest ih =>
    cases hcnt : counted excl e with
    | false =>
      rw [countNvis, if_neg (by simp [hcnt])] at hnv
      rw [countNflag, if_neg (by simp [hcnt])]
      simpa using ih (by simpa using hnv)
    | true =>
      rw [countNvis, if_pos (by simp [hcnt])] at hnv
      rw [countNflag, if_pos (by simp [hcnt])]
      by_cases h1 : e.1 = ap
      · rw [if_pos h1] at hnv
        omega
      · by_cases h2 : e.2.1 = ap
        · rw [if_neg h1, if_pos h2] at hnv
          omega
        · rw [if_neg h1, if_neg h2] at hnv
          simp only [if_neg h1, if_neg h2]
          simpa using ih (by simpa using hnv)

/-- C8. In the output-building loop of synthesize_ant_flags, an antenna
polarization that is not classified dead (not excluded) but participates in
zero counted visibilities has accumulated flag count zero, and the division
by the 1e-10 stand-in denominator yields flag fraction zero, so for every
nonnegative threshold its output flag waterfall is False everywhere. -/
theorem zero_nvis_unflagged (excl : APKey → Bool) (L : List FlagEntry)
    (ap : APKey) (thr : ℚ) (t f : ℕ)
    (hexcl : excl ap = false) (hnv : countNvis excl L ap = 0)
    (hthr : 0 ≤ thr) :
    countNflag excl L ap t f = 0 ∧
    build_ant_flags excl (countNvis excl L) (countNflag excl L) thr ap t f
      = false := by
  refine ⟨countNflag_eq_zero excl L ap t f hnv, ?_⟩
  rw [build_ant_flags, if_neg (by simp [hexcl])]
  rw [countNflag_eq_zero excl L ap t f hnv, if_pos hnv]
  simp only [zero_div, decide_eq_false_iff_not]
  exact not_lt.mpr hthr

/-- Witness for C8: antenna polarization (0, x) is not excluded, but its
only visibility has excluded partner (1, x), so nothing is counted. -/
theorem zero_nvis_unflagged_witness :
    (fun q : APKey => decide (q = (1, -5))) (0, -5) = false ∧
    countNvis (fun q => decide (q = (1, -5)))
      [((0, -5), (1, -5), fun _ _ => true)] (0, -5) = 0 ∧
    (countNflag (fun q => decide (q = (1, -5)))
        [((0, -5), (1, -5), fun _ _ => true)] (0, -5) 0 0 = 0 ∧
      build_ant_flags (fun q => decide (q = (1, -5)))
        (countNvis (fun q => decide (q = (1, -5)))
          [((0, -5), (1, -5), fun _ _ => true)])
        (countNflag (fun q => decide (q = (1, -5)))
          [((0, -5), (1, -5), fun _ _ => true)])
        0 (0, -5) 0 0 = false) :=
  ⟨by decide, by decide,
    zero_nvis_unflagged _ _ (0, -5) 0 0 0 (by decide) (by decide)
      (by norm_num)⟩

theorem any_match_of_countNvis_ne (excl : APKey → Bool) (L : List FlagEntry)
    (ap : APKey) (h : countNvis excl L ap ≠ 0) :
    L.any (fun e => decide (e.1 = ap) || decide (e.2.1 = ap)) = true := by
  induction L with
  | nil => exact absurd rfl h
  | cons e rest ih =>
    by_cases h1 : e.1 = ap
    · simp [h1]
    · by_cases h2 : e.2.1 = ap
      · simp [h2]
      · rw [countNvis, if_neg h1, if_neg h2] at h
        simp only [add_zero, if_pos, ite_self] at h
        simp only [List.any_cons, h1, h2, decide_eq_true_eq, decide_False,
          Bool.false_or]
        simpa using ih (by simpa using h)

/-- C10. synthesize_ant_flags asserts its threshold into the closed unit
interval (anything outside fails the assertion), replaces a threshold equal
to 1.0 by 1.0 - 1e-10 (the isclose adjustment applied at exactly 1.0), and
consequently a pixel of a non-excluded antenna polarization whose flagged
fraction is exactly 1 is still flagged at threshold 1.0. -/
theorem synth_threshold_one (Nt Nf : ℕ) (flags : List (BLKey × BoolW))
    (threshold : ℚ) :
    (¬ (0 ≤ threshold ∧ threshold ≤ 1) →
      synthesize_ant_flags Nt Nf flags threshold = none) ∧
    effThreshold 1 = 1 - 1 / 10 ^ 10 ∧
    (∀ L ap t f, splitKeys flags = some L →
      is_excluded Nt Nf L ap = false →
      countNvis (is_excluded Nt Nf L) L ap ≠ 0 →
      countNflag (is_excluded Nt Nf L) L ap t f =
        (countNvis (is_excluded Nt Nf L) L ap : ℚ) →
      (synthesize_ant_flags Nt Nf flags 1).bind
        (fun o => (o ap).map fun w => w t f) = some true) := by
  have hic : isclose 1 1 = true := by
    simp only [isclose, decide_eq_true_eq]
    norm_num
  refine ⟨fun hbad => ?_, ?_, fun L ap t f hsplit hexcl hnv hfrac => ?_⟩
  · rw [synthesize_ant_flags, if_neg hbad]
  · rw [effThreshold, if_pos hic]
  · have hany := any_match_of_countNvis_ne _ L ap hnv
    rw [synthesize_ant_flags, if_pos (by norm_num), hsplit,
      Option.map_some', Option.some_bind]
    simp only [hany]
    rw [if_pos trivial, Option.map_some']
    rw [build_ant_flags, if_neg (by simp [hexcl])]
    rw [hfrac, if_neg hnv, div_self (Nat.cast_ne_zero.mpr hnv)]
    rw [effThreshold, if_pos hic]
    simp only [Option.some.injEq, decide_eq_true_eq]
    norm_num

/-- Witness for C10: one visibility of shape (1, 2) flagged only in its
first frequency channel keeps both antennas alive, and the fully flagged
pixel is flagged at threshold 1.0. -/
theorem synth_threshold_one_witness :
    splitKeys [((0, 1, ['x', 'x']), fun _ f => decide (f = 0))] =
      some [((0, -5), (1, -5), fun _ f => decide (f = 0))] ∧
    (synthesize_ant_flags 1 2
        [((0, 1, ['x', 'x']), fun _ f => decide (f = 0))] 1).bind
      (fun o => (o (0, -5)).map fun w => w 0 0) = some true := by
  have hsplit : splitKeys [((0, 1, ['x', 'x']), fun _ f => decide (f = 0))] =
      some [((0, -5), (1, -5), fun _ f => decide (f = 0))] := by
    rw [splitKeys, show split_pol ['x', 'x'] = some (-5, -5) from by decide,
      splitKeys]
  have hfrac : countNflag
        (is_excluded 1 2 [((0, -5), (1, -5), fun _ f => decide (f = 0))])
        [((0, -5), (1, -5), fun _ f => decide (f = 0))] (0, -5) 0 0 =
      (countNvis
        (is_excluded 1 2 [((0, -5), (1, -5), fun _ f => decide (f = 0))])
        [((0, -5), (1, -5), fun _ f => decide (f = 0))] (0, -5) : ℚ) := by
    rw [show countNvis
        (is_excluded 1 2 [((0, -5), (1, -5), fun _ f => decide (f = 0))])
        [((0, -5), (1, -5), fun _ f => decide (f = 0))] (0, -5) = 1 from
        by decide]
    rw [countNflag, countNflag, if_pos (by decide), if_pos rfl,
      if_neg (by decide), if_pos (by decide)]
    norm_num
  exact ⟨hsplit,
    (synth_threshold_one 1 2 _ 1).2.2 _ (0, -5) 0 0 hsplit (by decide)
      (by decide) hfrac⟩

/-! ### Flag synthesis: threshold monotonicity -/

theorem effThreshold_mono (t1 t2 : ℚ) (h12 : t1 ≤ t2)
    (hiso : isclose t1 1 = isclose t2 1) :
    effThreshold t1 ≤ effThreshold t2 := by
  rw [effThreshold, effThreshold, hiso]
  cases hc : isclose t2 1
  · rw [if_neg (by simp [hc]), if_neg (by simp [hc])]
    exact h12
  · rw [if_pos (by simp [hc]), if_pos (by simp [hc])]
    exact sub_le_sub_right h12 _

/-- C6 amended. Raising the flagged-fraction threshold never flags a new
antenna pixel, provided the two thresholds lie on the same side of the
isclose-to-1.0 test (both inside its tolerance or both outside): any pixel
flagged at the larger threshold is flagged at the smaller one. (The
unamended claim fails when only the larger threshold is within isclose
tolerance of 1.0, because only that threshold is lowered by 1e-10.) -/
theorem synth_threshold_monotone_amended (Nt Nf : ℕ)
    (flags : List (BLKey × BoolW)) (t1 t2 : ℚ) (ap : APKey) (t f : ℕ)
    (h0 : 0 ≤ t1) (h12 : t1 ≤ t2) (h21 : t2 ≤ 1)
    (hiso : isclose t1 1 = isclose t2 1)
    (hflag : (synthesize_ant_flags Nt Nf flags t2).bind
      (fun o => (o ap).map fun w => w t f) = some true) :
    (synthesize_ant_flags Nt Nf flags t1).bind
      (fun o => (o ap).map fun w => w t f) = some true := by
  rw [synthesize_ant_flags, if_pos ⟨le_trans h0 h12, h21⟩] at hflag
  rw [synthesize_ant_flags, if_pos ⟨h0, le_trans h12 h21⟩]
  cases hsp : splitKeys flags with
  | none =>
    rw [hsp] at hflag
    exact absurd hflag (by simp)
  | some L =>
    rw [hsp] at hflag
    rw [Option.map_some', Option.some_bind] at hflag ⊢
    beta_reduce at hflag ⊢
    cases hany : L.any (fun e => decide (e.1 = ap) || decide (e.2.1 = ap)) with
    | false =>
      simp only [hany] at hflag
      rw [if_neg (by simp)] at hflag
      exact absurd hflag (by simp)
    | true =>
      simp only [hany] at hflag ⊢
      rw [if_pos (by trivial)] at hflag ⊢
      rw [Option.map_some'] at hflag ⊢
      rw [build_ant_flags] at hflag ⊢
      cases hexcl : is_excluded Nt Nf L ap with
      | true =>
        rw [if_pos rfl]
      | false =>
        rw [if_neg (by simp [hexcl])] at hflag ⊢
        simp only [Option.some.injEq, decide_eq_true_eq] at hflag ⊢
        exact lt_of_le_of_lt (effThreshold_mono t1 t2 h12 hiso) hflag

/-- Witness for the amended C6 at a single fully flagged visibility (its
antennas are classified dead, so the pixel is flagged at both 0 and 1/2). -/
theorem synth_threshold_monotone_amended_witness :
    isclose 0 1 = isclose (1 / 2 : ℚ) 1 ∧
    (synthesize_ant_flags 1 1 [((0, 1, ['x', 'x']), fun _ _ => true)]
        (0 : ℚ)).bind
      (fun o => (o (0, -5)).map fun w => w 0 0) = some true := by
  have hsplit : splitKeys [((0, 1, ['x', 'x']), fun _ _ => (true : Bool))] =
      some [((0, -5), (1, -5), fun _ _ => true)] := by
    rw [splitKeys, show split_pol ['x', 'x'] = some (-5, -5) from by decide]
    rfl
  have hiso : isclose 0 1 = isclose (1 / 2 : ℚ) 1 := by
    have hl : isclose 0 1 = false := by
      simp only [isclose, decide_eq_false_iff_not]
      rw [show |(0 : ℚ) - 1| = 1 by rw [zero_sub, abs_neg, abs_one]]
      norm_num
    have hr : isclose (1 / 2 : ℚ) 1 = false := by
      simp only [isclose, decide_eq_false_iff_not]
      rw [show |(1 / 2 : ℚ) - 1| = 1 / 2 by
        rw [show (1 / 2 : ℚ) - 1 = -(1 / 2) by norm_num, abs_neg,
          abs_of_nonneg (by norm_num)]]
      norm_num
    rw [hl, hr]
  have hflag : (synthesize_ant_flags 1 1
        [((0, 1, ['x', 'x']), fun _ _ => true)] (1 / 2 : ℚ)).bind
      (fun o => (o (0, -5)).map fun w => w 0 0) = some true := by
    rw [synthesize_ant_flags, if_pos (by norm_num), hsplit,
      Option.map_some', Option.some_bind]
    beta_reduce
    rw [if_pos (by decide), Option.map_some', build_ant_flags,
      if_pos (by decide)]
  exact ⟨hiso,
    synth_threshold_monotone_amended 1 1 _ 0 (1 / 2) (0, -5) 0 0
      (le_refl 0) (by norm_num) (by norm_num) hiso hflag⟩

theorem splitKeys_append (l1 l2 : List (BLKey × BoolW))
    (L1 L2 : List FlagEntry) (h1 : splitKeys l1 = some L1)
    (h2 : splitKeys l2 = some L2) :
    splitKeys (l1 ++ l2) = some (L1 ++ L2) := by
  induction l1 generalizing L1 with
  | nil =>
    rw [splitKeys] at h1
    injection h1 with hL
    subst hL
    simpa using h2
  | cons e rest ih =>
    rw [splitKeys] at h1
    cases hsp : split_pol e.1.2.2 with
    | none =>
      rw [hsp] at h1
      exact absurd h1 (by simp)
    | some p =>
      cases hrest : splitKeys rest with
      | none =>
        rw [hsp, hrest] at h1
        exact absurd h1 (by simp)
      | some Lr =>
        rw [hsp, hrest] at h1
        injection h1 with hL
        subst hL
        rw [List.cons_append, splitKeys, hsp, ih Lr hrest]
        rfl

theorem splitKeys_xx_map {β : Type} (l : List β) (a b : β → ℕ)
    (w : β → BoolW) :
    splitKeys (l.map fun x => ((a x, b x, ['x', 'x']), w x)) =
      some (l.map fun x => ((a x, (-5 : ℤ)), (b x, (-5 : ℤ)), w x)) := by
  induction l with
  | nil => rfl
  | cons x rest ih =>
    rw [List.map_cons, splitKeys,
      show split_pol ['x', 'x'] = some (-5, -5) from by decide, ih,
      List.map_cons]

theorem splitKeys_bigFlags (m : ℕ) :
    splitKeys (bigFlags m) = some (bigL m) := by
  rw [bigFlags, bigL]
  refine splitKeys_append _ _ _ _
    (splitKeys_xx_map (List.range m) _ _ _) ?_
  rw [splitKeys, show split_pol ['x', 'x'] = some (-5, -5) from by decide]
  rfl

theorem is_excluded_false_of_mem (Nt Nf : ℕ) (L : List FlagEntry)
    (ap : APKey) (e : FlagEntry) (he : e ∈ L)
    (hnall : allFlagged Nt Nf e.2.2 = false)
    (hmatch : e.1 = ap ∨ e.2.1 = ap) : is_excluded Nt Nf L ap = false := by
  simp only [is_excluded, Bool.not_eq_false', List.any_eq_true]
  refine ⟨e, he, ?_⟩
  rw [hnall]
  rcases hmatch with hm | hm <;> simp [hm]

/-- Any visibility that is not completely flagged keeps both of its end
antenna polarizations alive; in particular it is itself counted. -/
theorem counted_of_mem (Nt Nf : ℕ) (L : List FlagEntry) (e : FlagEntry)
    (he : e ∈ L) (hnall : allFlagged Nt Nf e.2.2 = false) :
    counted (is_excluded Nt Nf L) e = true := by
  rw [counted,
    is_excluded_false_of_mem Nt Nf L e.1 e he hnall (Or.inl rfl),
    is_excluded_false_of_mem Nt Nf L e.2.1 e he hnall (Or.inr rfl)]
  rfl

theorem countNvis_append (excl : APKey → Bool) (L1 L2 : List FlagEntry)
    (ap : APKey) :
    countNvis excl (L1 ++ L2) ap =
      countNvis excl L1 ap + countNvis excl L2 ap := by
  induction L1 with
  | nil => rw [List.nil_append, countNvis, Nat.zero_add]
  | cons e rest ih =>
    rw [List.cons_append, countNvis, ih, countNvis, Nat.add_assoc]

theorem countNflag_append (excl : APKey → Bool) (L1 L2 : List FlagEntry)
    (ap : APKey) (t f : ℕ) :
    countNflag excl (L1 ++ L2) ap t f =
      countNflag excl L1 ap t f + countNflag excl L2 ap t f := by
  induction L1 with
  | nil => rw [List.nil_append, countNflag, zero_add]
  | cons e rest ih =>
    rw [List.cons_append, countNflag, ih, countNflag, add_assoc]

theorem countNvis_uniform (excl : APKey → Bool) (L : List FlagEntry)
    (ap : APKey)
    (h : ∀ e ∈ L, counted excl e = true ∧ e.1 = ap ∧ e.2.1 ≠ ap) :
    countNvis excl L ap = L.length := by
  induction L with
  | nil => rfl
  | cons e rest ih =>
    obtain ⟨hc, h1, h2⟩ := h e (List.mem_cons_self e rest)
    rw [countNvis, if_pos hc, if_pos h1, if_neg h2,
      ih (fun x hx => h x (List.mem_cons_of_mem _ hx)), List.length_cons]
    omega

theorem countNflag_uniform (excl : APKey → Bool) (L : List FlagEntry)
    (ap : APKey) (t f : ℕ)
    (h : ∀ e ∈ L, counted excl e = true ∧ e.1 = ap ∧ e.2.1 ≠ ap ∧
      e.2.2 t f = true) :
    countNflag excl L ap t f = L.length := by
  induction L with
  | nil => rw [countNflag, List.length_nil, Nat.cast_zero]
  | cons e rest ih =>
    obtain ⟨hc, h1, h2, h3⟩ := h e (List.mem_cons_self e rest)
    rw [countNflag, if_pos hc, if_pos h1, if_neg h2, if_pos h3,
      ih (fun x hx => h x (List.mem_cons_of_mem _ hx)), List.length_cons]
    push_cast
    ring

theorem bigL_mem_shape (m : ℕ) (e : FlagEntry) (he : e ∈ bigL m) :
    e.1 = ((0 : ℕ), (-5 : ℤ)) ∧ allFlagged 1 2 e.2.2 = false ∧
      e.2.1 ≠ ((0 : ℕ), (-5 : ℤ)) := by
  rw [bigL] at he
  rcases List.mem_append.mp he with hm | hm
  · obtain ⟨k, _, hek⟩ := List.mem_map.mp hm
    rw [← hek]
    refine ⟨rfl, show allFlagged 1 2 cexW1 = false by decide, ?_⟩
    simp [Prod.ext_iff]
  · rw [List.mem_singleton.mp hm]
    refine ⟨rfl, show allFlagged 1 2 cexW0 = false by decide, ?_⟩
    simp [Prod.ext_iff]

theorem bigL_conditions (m : ℕ) :
    ∀ e ∈ bigL m, counted (is_excluded 1 2 (bigL m)) e = true ∧
      e.1 = ((0 : ℕ), (-5 : ℤ)) ∧ e.2.1 ≠ ((0 : ℕ), (-5 : ℤ)) :=
  fun e he =>
    ⟨counted_of_mem 1 2 _ e he (bigL_mem_shape m e he).2.1,
      (bigL_mem_shape m e he).1, (bigL_mem_shape m e he).2.2⟩

theorem bigL_countNvis (m : ℕ) :
    countNvis (is_excluded 1 2 (bigL m)) (bigL m) ((0 : ℕ), (-5 : ℤ)) =
      m + 1 := by
  rw [countNvis_uniform _ _ _ (bigL_conditions m), bigL]
  simp [List.length_append, List.length_map, List.length_range]

theorem bigL_countNflag (m : ℕ) :
    countNflag (is_excluded 1 2 (bigL m)) (bigL m) ((0 : ℕ), (-5 : ℤ)) 0 0 =
      m := by
  have hparts := countNflag_append (is_excluded 1 2 (bigL m))
    ((List.range m).map fun k =>
      (((0 : ℕ), (-5 : ℤ)), ((k + 1 : ℕ), (-5 : ℤ)), cexW1))
    [(((0 : ℕ), (-5 : ℤ)), ((m + 1 : ℕ), (-5 : ℤ)), cexW0)]
    ((0 : ℕ), (-5 : ℤ)) 0 0
  nth_rewrite 2 [bigL]
  rw [hparts]
  have hmain : countNflag (is_excluded 1 2 (bigL m))
      ((List.range m).map fun k =>
        (((0 : ℕ), (-5 : ℤ)), ((k + 1 : ℕ), (-5 : ℤ)), cexW1))
      ((0 : ℕ), (-5 : ℤ)) 0 0 = m := by
    rw [countNflag_uniform _ _ _ 0 0 ?_]
    · rw [List.length_map, List.length_range]
    · intro e he
      have heL : e ∈ bigL m := by
        rw [bigL]
        exact List.mem_append_left _ he
      refine ⟨(bigL_conditions m e heL).1, (bigL_conditions m e heL).2.1,
        (bigL_conditions m e heL).2.2, ?_⟩
      obtain ⟨k, _, hek⟩ := List.mem_map.mp he
      rw [← hek]
      rfl
  have hlast : countNflag (is_excluded 1 2 (bigL m))
      [(((0 : ℕ), (-5 : ℤ)), ((m + 1 : ℕ), (-5 : ℤ)), cexW0)]
      ((0 : ℕ), (-5 : ℤ)) 0 0 = 0 := by
    rw [countNflag, countNflag]
    simp [cexW0]
  rw [hmain, hlast, add_zero]

theorem is_excluded_bigL (m : ℕ) :
    is_excluded 1 2 (bigL m) ((0 : ℕ), (-5 : ℤ)) = false := by
  refine is_excluded_false_of_mem 1 2 (bigL m) _
    (((0 : ℕ), (-5 : ℤ)), ((m + 1 : ℕ), (-5 : ℤ)), cexW0) ?_
    (show allFlagged 1 2 cexW0 = false by decide) (Or.inl rfl)
  rw [bigL]
  exact List.mem_append_right _ (List.mem_singleton.mpr rfl)

/-- Full evaluation of the counterexample family at pixel (0, 0) of
antenna polarization (0, x), for any threshold in the unit interval. -/
theorem synth_bigFlags_eval (m : ℕ) (tq : ℚ) (h0 : 0 ≤ tq) (h1 : tq ≤ 1) :
    (synthesize_ant_flags 1 2 (bigFlags m) tq).bind
      (fun o => (o ((0 : ℕ), (-5 : ℤ))).map fun w => w 0 0) =
    some (decide ((m : ℚ) / ((m : ℚ) + 1) > effThreshold tq)) := by
  rw [synthesize_ant_flags, if_pos ⟨h0, h1⟩, splitKeys_bigFlags m,
    Option.map_some', Option.some_bind]
  beta_reduce
  have hany : ((bigL m).any fun e =>
      decide (e.1 = ((0 : ℕ), (-5 : ℤ))) ||
        decide (e.2.1 = ((0 : ℕ), (-5 : ℤ)))) = true := by
    rw [List.any_eq_true]
    refine ⟨(((0 : ℕ), (-5 : ℤ)), ((m + 1 : ℕ), (-5 : ℤ)), cexW0), ?_, ?_⟩
    · rw [bigL]
      exact List.mem_append_right _ (List.mem_singleton.mpr rfl)
    · simp
  simp only [hany]
  rw [if_pos (by trivial), Option.map_some', build_ant_flags,
    if_neg (by simp [is_excluded_bigL m])]
  rw [bigL_countNflag m, bigL_countNvis m, if_neg (Nat.succ_ne_zero m)]
  push_cast
  rfl

/-- C6 counterexample. The claim fails as stated: with the counterexample
flag container, for the thresholds t1 = 99899/99900 and
t2 = 99899/99900 + 5e-11 (both in the unit interval, t1 below t2),
pixel (0, 0) of antenna polarization (0, x) is flagged at the larger
threshold t2 but not at the smaller threshold t1, because t2 is within
the isclose tolerance of 1.0 and is therefore lowered by 1e-10 while t1
is not. Every comparison here clears its bound by at least 1e-11
(t1 exceeds the tolerance distance by about 1.0e-11, t2 is inside it by
about 4.0e-11, the flag fraction exceeds the adjusted t2 by 5e-11, and
it equals t1 exactly, both being the same quotient 99899/99900), so the
float64 evaluation of the source, whose rounding errors near these
magnitudes are below 1e-15, reaches the same booleans as this exact
model at both thresholds. -/
theorem synth_threshold_monotone_cex :
    ((0 : ℚ) ≤ 99899 / 99900) ∧
    ((99899 / 99900 : ℚ) ≤ 99899 / 99900 + 5 / 10 ^ 11) ∧
    ((99899 / 99900 + 5 / 10 ^ 11 : ℚ) ≤ 1) ∧
    (synthesize_ant_flags 1 2 (bigFlags 99899)
        (99899 / 99900 + 5 / 10 ^ 11)).bind
      (fun o => (o ((0 : ℕ), (-5 : ℤ))).map fun w => w 0 0) = some true ∧
    (synthesize_ant_flags 1 2 (bigFlags 99899) (99899 / 99900)).bind
      (fun o => (o ((0 : ℕ), (-5 : ℤ))).map fun w => w 0 0) = some false := by
  have hic2 : isclose (99899 / 99900 + 5 / 10 ^ 11) 1 = true := by
    simp only [isclose, decide_eq_true_eq]
    rw [show (99899 / 99900 + 5 / 10 ^ 11 : ℚ) - 1 =
      -(1 / 99900 - 5 / 10 ^ 11) by norm_num,
      abs_neg, abs_of_nonneg (by norm_num)]
    norm_num
  have hic1 : isclose (99899 / 99900 : ℚ) 1 = false := by
    simp only [isclose, decide_eq_false_iff_not]
    rw [show (99899 / 99900 : ℚ) - 1 = -(1 / 99900) by norm_num,
      abs_neg, abs_of_nonneg (by norm_num)]
    norm_num
  refine ⟨by norm_num, by norm_num, by norm_num, ?_, ?_⟩
  · rw [synth_bigFlags_eval 99899 _ (by norm_num) (by norm_num),
      effThreshold, if_pos hic2]
    simp only [Option.some.injEq, decide_eq_true_eq]
    push_cast
    norm_num
  · rw [synth_bigFlags_eval 99899 _ (by norm_num) (by norm_num),
      effThreshold, if_neg (by simp [hic1])]
    simp only [Option.some.injEq, decide_eq_false_iff_not]
    push_cast
    norm_num

/-! ### Chi-square: accumulation lemmas -/

theorem chisqFold_error (split : Bool) (model : BLKey → Option VisW)
    (data_wgts : BLKey → Option RealW) (gains : Option (APKey → VisW))
    (gain_flags : Option (APKey → BoolW)) (data : List (BLKey × VisW))
    (s : String) :
    chisqFold split model data_wgts gains gain_flags data (.error s) =
      .error s := by
  induction data with
  | nil => rfl
  | cons e rest ih =>
    rw [chisqFold, show (Except.error s : Except String (ChisqState split)).bind
      (fun st => chisqStep split model data_wgts gains gain_flags st e) =
      Except.error s from rfl, ih]

theorem chisqFold_append (split : Bool) (model : BLKey → Option VisW)
    (data_wgts : BLKey → Option RealW) (gains : Option (APKey → VisW))
    (gain_flags : Option (APKey → BoolW)) (l1 l2 : List (BLKey × VisW))
    (acc : Except String (ChisqState split)) :
    chisqFold split model data_wgts gains gain_flags (l1 ++ l2) acc =
      chisqFold split model data_wgts gains gain_flags l2
        (chisqFold split model data_wgts gains gain_flags l1 acc) := by
  induction l1 generalizing acc with
  | nil => rfl
  | cons e rest ih =>
    rw [List.cons_append, chisqFold, chisqFold, ih]

/-- C4. Incremental accumulation: running chisq on one subset of baselines
starting fresh, then feeding all four resulting accumulators into a second
chisq call on another subset, produces exactly the result of one chisq
call over the concatenated baseline set (same model, weights, gains and
flags throughout). -/
theorem chisq_additive (split : Bool) (data1 data2 : List (BLKey × VisW))
    (model : BLKey → Option VisW) (data_wgts : BLKey → Option RealW)
    (gains : Option (APKey → VisW)) (gain_flags : Option (APKey → BoolW))
    (hdisj : ∀ k ∈ data1.map Prod.fst, k ∉ data2.map Prod.fst) :
    (chisq split data1 model data_wgts gains gain_flags
        none none none none).bind
      (fun r => chisq split data2 model data_wgts gains gain_flags
        (some r.1) (some r.2.1) (some r.2.2.1) (some r.2.2.2)) =
    chisq split (data1 ++ data2) model data_wgts gains gain_flags
      none none none none := by
  rw [chisq, chisq, chisqFold_append]
  cases hres : chisqFold split model data_wgts gains gain_flags data1
      (.ok (initChi split, initNObs split, fun _ => none, fun _ => none)) with
  | error s =>
    rw [show (Except.error s : Except String (ChisqState split)).bind _ =
      Except.error s from rfl, chisqFold_error]
  | ok st =>
    rw [show (Except.ok st : Except String (ChisqState split)).bind
      (fun r => chisq split data2 model data_wgts gains gain_flags
        (some r.1) (some r.2.1) (some r.2.2.1) (some r.2.2.2)) =
      chisq split data2 model data_wgts gains gain_flags
        (some st.1) (some st.2.1) (some st.2.2.1) (some st.2.2.2) from rfl,
      chisq]

/-- Witness for C4 at two concrete one-baseline subsets with disjoint
keys. -/
theorem chisq_additive_witness :
    (∀ k ∈ ([((0, 1, ['x', 'x']), fun _ _ => (2 : ℂ))] :
        List (BLKey × VisW)).map Prod.fst,
      k ∉ ([((1, 2, ['x', 'y']), fun _ _ => (3 : ℂ))] :
        List (BLKey × VisW)).map Prod.fst) ∧
    (chisq false [((0, 1, ['x', 'x']), fun _ _ => (2 : ℂ))]
        (fun _ => some fun _ _ => 0) (fun _ => some fun _ _ => 1)
        none none none none none none).bind
      (fun r => chisq false [((1, 2, ['x', 'y']), fun _ _ => (3 : ℂ))]
        (fun _ => some fun _ _ => 0) (fun _ => some fun _ _ => 1)
        none none (some r.1) (some r.2.1) (some r.2.2.1) (some r.2.2.2)) =
    chisq false
      ([((0, 1, ['x', 'x']), fun _ _ => (2 : ℂ))] ++
        [((1, 2, ['x', 'y']), fun _ _ => (3 : ℂ))])
      (fun _ => some fun _ _ => 0) (fun _ => some fun _ _ => 1)
      none none none none none none :=
  ⟨by decide,
    chisq_additive false _ _ _ _ none none (by decide)⟩

theorem chisqMainAcc_error (split : Bool) (c : ChiT split) (n : NObsT split)
    (ap : ℤ) (ch : RealW) (ob : IntW) (s : String)
    (h : chisqMainAcc split c n ap ch ob = .error s) : s = assertMsg := by
  cases split with
  | false => exact absurd h (by simp [chisqMainAcc])
  | true =>
    rw [chisqMainAcc] at h
    cases hc : c ap with
    | none =>
      cases hn : n ap with
      | none => rw [hc, hn] at h; exact absurd h (by simp)
      | some na => rw [hc, hn] at h; injection h with hh; exact hh.symm
    | some ca =>
      cases hn : n ap with
      | none => rw [hc, hn] at h; injection h with hh; exact hh.symm
      | some na => rw [hc, hn] at h; exact absurd h (by simp)

theorem perAntAcc_error (p : APKey → Option RealW) (q : APKey → Option IntW)
    (ant : APKey) (ch : RealW) (ob : IntW) (s : String)
    (h : perAntAcc p q ant ch ob = .error s) : s = assertMsg := by
  rw [perAntAcc] at h
  cases hc : p ant with
  | none =>
    cases hn : q ant with
    | none => rw [hc, hn] at h; exact absurd h (by simp)
    | some na => rw [hc, hn] at h; injection h with hh; exact hh.symm
  | some ca =>
    cases hn : q ant with
    | none => rw [hc, hn] at h; injection h with hh; exact hh.symm
    | some na => rw [hc, hn] at h; exact absurd h (by simp)

theorem chisqAccumulate_error (split : Bool) (st : ChisqState split)
    (ap1 : ℤ) (ant1 ant2 : APKey) (ch : RealW) (ob : IntW) (s : String)
    (h : chisqAccumulate split st ap1 ant1 ant2 ch ob = .error s) :
    s = assertMsg := by
  unfold chisqAccumulate at h
  split at h
  · injection h with hh
    subst hh
    exact chisqMainAcc_error split st.1 st.2.1 ap1 ch ob _ (by assumption)
  · split at h
    · injection h with hh
      subst hh
      exact perAntAcc_error st.2.2.1 st.2.2.2 ant1 ch ob _ (by assumption)
    · split at h
      · injection h with hh
        subst hh
        exact perAntAcc_error _ _ ant2 ch ob _ (by assumption)
      · exact absurd h (by simp)

theorem chisqStep_error (split : Bool) (model : BLKey → Option VisW)
    (data_wgts : BLKey → Option RealW) (gains : Option (APKey → VisW))
    (gain_flags : Option (APKey → BoolW)) (st : ChisqState split)
    (e : BLKey × VisW) (s : String)
    (h : chisqStep split model data_wgts gains gain_flags st e = .error s) :
    s = splitPolMsg ∨ s = assertMsg := by
  unfold chisqStep at h
  split at h
  · injection h with hh
    exact Or.inl hh.symm
  · split at h
    · split at h
      · exact absurd h (by simp)
      · exact Or.inr (chisqAccumulate_error _ _ _ _ _ _ _ _ h)
    · exact absurd h (by simp)

theorem chisqFold_error_mem (split : Bool) (model : BLKey → Option VisW)
    (data_wgts : BLKey → Option RealW) (gains : Option (APKey → VisW))
    (gain_flags : Option (APKey → BoolW)) :
    ∀ (data : List (BLKey × VisW)) (st : ChisqState split) (s : String),
      chisqFold split model data_wgts gains gain_flags data (.ok st) =
        .error s →
      s = splitPolMsg ∨ s = assertMsg := by
  intro data
  induction data with
  | nil =>
    intro st s h
    exact absurd h (by rw [chisqFold]; simp)
  | cons e rest ih =>
    intro st s h
    rw [chisqFold, show (Except.ok st : Except String (ChisqState split)).bind
      (fun x => chisqStep split model data_wgts gains gain_flags x e) =
      chisqStep split model data_wgts gains gain_flags st e from rfl] at h
    cases hstep : chisqStep split model data_wgts gains gain_flags st e with
    | error s2 =>
      rw [hstep, chisqFold_error] at h
      injection h with hh
      subst hh
      exact chisqStep_error split model data_wgts gains gain_flags st e s2
        hstep
    | ok st2 =>
      rw [hstep] at h
      exact ih st2 s h

/-- C5. The accumulator pairing contract of chisq: supplying exactly one of
the chisq / nObs pair, or (when that pair is consistent) exactly one of the
chisq_per_ant / nObs_per_ant pair, fails fast with the corresponding
ValueError before any accumulation (for every data container); when both
members of each pair are supplied, or neither is, no such error is raised
(any error then raised comes from inside the accumulation loop). -/
theorem chisq_pairing_check (split : Bool) (data : List (BLKey × VisW))
    (model : BLKey → Option VisW) (data_wgts : BLKey → Option RealW)
    (gains : Option (APKey → VisW)) (gain_flags : Option (APKey → BoolW))
    (chisq0 : Option (ChiT split)) (nObs0 : Option (NObsT split))
    (chisq_per_ant0 : Option (APKey → Option RealW))
    (nObs_per_ant0 : Option (APKey → Option IntW)) :
    (chisq0.isSome ≠ nObs0.isSome →
      chisq split data model data_wgts gains gain_flags chisq0 nObs0
        chisq_per_ant0 nObs_per_ant0 = .error pairMsg1) ∧
    (chisq0.isSome = nObs0.isSome →
      chisq_per_ant0.isSome ≠ nObs_per_ant0.isSome →
      chisq split data model data_wgts gains gain_flags chisq0 nObs0
        chisq_per_ant0 nObs_per_ant0 = .error pairMsg2) ∧
    (chisq0.isSome = nObs0.isSome →
      chisq_per_ant0.isSome = nObs_per_ant0.isSome →
      ∀ s, chisq split data model data_wgts gains gain_flags chisq0 nObs0
        chisq_per_ant0 nObs_per_ant0 = .error s →
        s ≠ pairMsg1 ∧ s ≠ pairMsg2) := by
  refine ⟨fun hcn => ?_, fun hcn hpq => ?_, fun hcn hpq s hs => ?_⟩
  · cases chisq0 <;> cases nObs0
    · exact absurd hcn (by simp)
    · rfl
    · rfl
    · exact absurd hcn (by simp)
  · cases chisq0 <;> cases nObs0
    · cases chisq_per_ant0 <;> cases nObs_per_ant0
      · exact absurd hpq (by simp)
      · rfl
      · rfl
      · exact absurd hpq (by simp)
    · exact absurd hcn (by simp)
    · exact absurd hcn (by simp)
    · cases chisq_per_ant0 <;> cases nObs_per_ant0
      · exact absurd hpq (by simp)
      · rfl
      · rfl
      · exact absurd hpq (by simp)
  · have hset : s = splitPolMsg ∨ s = assertMsg := by
      cases chisq0 <;> cases nObs0
      · cases chisq_per_ant0 <;> cases nObs_per_ant0
        · exact chisqFold_error_mem split model data_wgts gains gain_flags
            data _ s hs
        · exact absurd hpq (by simp)
        · exact absurd hpq (by simp)
        · exact chisqFold_error_mem split model data_wgts gains gain_flags
            data _ s hs
      · exact absurd hcn (by simp)
      · exact absurd hcn (by simp)
      · cases chisq_per_ant0 <;> cases nObs_per_ant0
        · exact chisqFold_error_mem split model data_wgts gains gain_flags
            data _ s hs
        · exact absurd hpq (by simp)
        · exact absurd hpq (by simp)
        · exact chisqFold_error_mem split model data_wgts gains gain_flags
            data _ s hs
    rcases hset with h | h <;> subst h <;> exact ⟨by decide, by decide⟩

/-- Witness for C5: supplying chisq without nObs raises the ValueError. -/
theorem chisq_pairing_check_witness :
    (Option.isSome (some (initChi false)) ≠
      Option.isSome (none : Option (NObsT false))) ∧
    chisq false [] (fun _ => none) (fun _ => none) none none
      (some (initChi false)) none none none = .error pairMsg1 :=
  ⟨by simp,
    (chisq_pairing_check false [] (fun _ => none) (fun _ => none) none none
      (some (initChi false)) none none none).1 (by simp)⟩

/-- C1, code bug evidence. With one baseline, data identically 2, model
identically 0, unit weights, no gains and no flags, the accumulated
chi-square is |0 - 2| * 1 = 2, whereas the documented formula (the
docstring of chisq and the specification) gives |0 - 2|^2 * 1 = 4: the
implementation omits the square on the absolute residual. -/
theorem chisq_abs_not_squared :
    ((chisq false [((0, 1, ['x', 'x']), fun _ _ => (2 : ℂ))]
        (fun _ => some fun _ _ => 0) (fun _ => some fun _ _ => 1)
        none none none none none none).map fun r => r.1 0 0) =
      Except.ok (2 : ℝ) ∧
    Complex.abs ((0 : ℂ) - 2) ^ 2 * 1 = (4 : ℝ) ∧ ((2 : ℝ) ≠ 4) := by
  have habs : Complex.abs ((0 : ℂ) - 2) = 2 := by
    rw [zero_sub, AbsoluteValue.map_neg, Complex.abs_two]
  refine ⟨?_, by rw [habs]; norm_num, by norm_num⟩
  simp only [chisq, chisqFold, chisqStep, chisqAccumulate, chisqMainAcc,
    perAntAcc, initChi, initNObs, Except.bind, Except.map,
    show split_pol ['x', 'x'] = some (-5, -5) from by decide]
  norm_num [habs]
  simp [updMap]

theorem length_addAt (row : List ℤ) (i : ℕ) (v : ℤ) :
    (addAt row i v).length = row.length := by
  rw [addAt, List.length_set]

theorem getD_set_entry (l : List ℤ) (i c : ℕ) (v : ℤ) :
    (l.set i v).getD c 0 = if c = i ∧ i < l.length then v else l.getD c 0 := by
  induction l generalizing i c with
  | nil => simp
  | cons a l ih =>
    cases i with
    | zero =>
      cases c with
      | zero => simp
      | succ c => simp [List.getD_cons_succ]
    | succ i =>
      cases c with
      | zero => simp
      | succ c =>
        rw [show (a :: l).set (i + 1) v = a :: l.set i v from rfl,
          List.getD_cons_succ, List.getD_cons_succ, ih]
        have hiff : (c + 1 = i + 1 ∧ i + 1 < (a :: l).length) ↔
            (c = i ∧ i < l.length) := by
          rw [List.length_cons]
          omega
        rw [if_congr hiff rfl rfl]

theorem getD_addAt (row : List ℤ) (i c : ℕ) (v : ℤ) (hi : i < row.length) :
    (addAt row i v).getD c 0 = row.getD c 0 + (if c = i then v else 0) := by
  rw [addAt, getD_set_entry]
  by_cases hc : c = i
  · rw [if_pos ⟨hc, hi⟩, if_pos hc, hc]
  · rw [if_neg (by tauto), if_neg hc, add_zero]

theorem getD_replicate_zero (n c : ℕ) :
    (List.replicate n (0 : ℤ)).getD c 0 = 0 := by
  induction n generalizing c with
  | zero => simp
  | succ n ih =>
    cases c with
    | zero => simp [List.replicate]
    | succ c => simp [List.replicate, List.getD_cons_succ, ih]

theorem length_pairsOf (l : List Bl) :
    (pairsOf l).length = l.length.choose 2 := by
  induction l with
  | nil => rfl
  | cons x xs ih =>
    rw [pairsOf, List.length_append, List.length_map, ih, List.length_cons,
      Nat.choose_succ_succ, Nat.choose_one_right, Nat.add_comm]

theorem length_blPairs (reds : List (List Bl)) :
    (blPairs reds).length = (reds.map fun gp => gp.length.choose 2).sum := by
  induction reds with
  | nil => rfl
  | cons gp rest ih =>
    rw [blPairs, List.flatMap_cons, List.length_append, length_pairsOf,
      List.map_cons, List.sum_cons]
    rw [blPairs] at ih
    rw [ih]

/-- C3. init_from_reds builds the design matrix with one row per
position-ordered pair of distinct baselines within each redundant group
(a group with fewer than two baselines contributes no pairs and raises no
error), and the row of pair ((i,j), (k,l)) carries coefficient +1 at the
column of antenna i, -1 at j, -1 at k and +1 at l, the contributions
summing where antenna columns coincide, and every other column zero. -/
theorem init_from_reds_design (reds : List (List Bl)) (antIndex : ℕ → ℕ)
    (nant : ℕ) :
    designA antIndex nant reds = (blPairs reds).map (pairRow antIndex nant) ∧
    (designA antIndex nant reds).length =
      (reds.map fun gp => gp.length.choose 2).sum ∧
    (∀ gp : List Bl, gp.length < 2 → pairsOf gp = []) ∧
    (∀ bp ∈ blPairs reds,
      antIndex bp.1.1 < nant → antIndex bp.1.2 < nant →
      antIndex bp.2.1 < nant → antIndex bp.2.2 < nant →
      ∀ c, c < nant →
        (pairRow antIndex nant bp).getD c 0 =
          (if c = antIndex bp.1.1 then 1 else 0) -
          (if c = antIndex bp.1.2 then 1 else 0) -
          (if c = antIndex bp.2.1 then 1 else 0) +
          (if c = antIndex bp.2.2 then 1 else 0)) := by
  refine ⟨rfl, ?_, ?_, ?_⟩
  · rw [designA, List.length_map, length_blPairs]
  · intro gp hgp
    rcases gp with _ | ⟨x, _ | ⟨y, rest⟩⟩
    · rfl
    · rfl
    · rw [List.length_cons, List.length_cons] at hgp
      omega
  · intro bp _ h1 h2 h3 h4 c _
    have lrep : (List.replicate nant (0 : ℤ)).length = nant :=
      List.length_replicate nant 0
    have l1 : (addAt (List.replicate nant 0) (antIndex bp.1.1) 1).length =
        nant := by rw [length_addAt, lrep]
    have l2 : (addAt (addAt (List.replicate nant 0) (antIndex bp.1.1) 1)
        (antIndex bp.1.2) (-1)).length = nant := by rw [length_addAt, l1]
    have l3 : (addAt (addAt (addAt (List.replicate nant 0)
        (antIndex bp.1.1) 1) (antIndex bp.1.2) (-1))
        (antIndex bp.2.1) (-1)).length = nant := by rw [length_addAt, l2]
    rw [pairRow, getD_addAt _ _ _ _ (by rw [l3]; exact h4),
      getD_addAt _ _ _ _ (by rw [l2]; exact h3),
      getD_addAt _ _ _ _ (by rw [l1]; exact h2),
      getD_addAt _ _ _ _ (by rw [lrep]; exact h1),
      getD_replicate_zero]
    split_ifs <;> ring

/-- Witness for C3 at two redundant groups, the second a singleton that
contributes no row. -/
theorem init_from_reds_design_witness :
    (designA id 6 [[(0, 1), (2, 3)], [(4, 5)]]).length = 1 ∧
    ((0, 1), (2, 3)) ∈ blPairs [[(0, 1), (2, 3)], [(4, 5)]] ∧
    (pairRow id 6 ((0, 1), (2, 3))).getD 0 0 =
      (if (0 : ℕ) = id 0 then 1 else 0) - (if (0 : ℕ) = id 1 then 1 else 0) -
      (if (0 : ℕ) = id 2 then 1 else 0) + (if (0 : ℕ) = id 3 then 1 else 0) := by
  refine ⟨?_, by decide, ?_⟩
  · rw [(init_from_reds_design [[(0, 1), (2, 3)], [(4, 5)]] id 6).2.1]
    decide
  · exact (init_from_reds_design [[(0, 1), (2, 3)], [(4, 5)]] id 6).2.2.2
      ((0, 1), (2, 3)) (by decide) (by decide) (by decide) (by decide)
      (by decide) 0 (by decide)

/-- C7. make_gains never fails when a component was not solved: each
absent component contributes an identity factor, so with no calibration
step run the assembled gain is identically 1 at every antenna, time,
frequency and polarization; each present component is multiplied in, the
phase terms through the negated complex exponential. -/
theorem make_gains_identity (s : AbsCalState) (a t f p : ℕ) :
    (s.gain_amp = none → s.gain_psi = none → s.gain_phi = none →
      make_gains s a t f p = 1) ∧
    (∀ amp psi phi, s.gain_amp = some amp → s.gain_psi = some psi →
      s.gain_phi = some phi →
      make_gains s a t f p =
        (amp t f p : ℂ) * Complex.exp (-Complex.I * (psi t f p : ℂ)) *
          Complex.exp (-Complex.I *
            ((∑ d : Fin 2, phi d t f p * s.antpos a d : ℝ) : ℂ))) ∧
    (∀ amp, s.gain_amp = some amp → s.gain_psi = none →
      s.gain_phi = none → make_gains s a t f p = (amp t f p : ℂ)) := by
  refine ⟨fun h1 h2 h3 => ?_, fun amp psi phi h1 h2 h3 => ?_,
    fun amp h1 h2 h3 => ?_⟩
  · rw [make_gains]
    rw [h1, h2, h3]
  · rw [make_gains]
    rw [h1, h2, h3]
    simp [one_mul]
  · rw [make_gains]
    rw [h1, h2, h3]
    simp [one_mul]

/-- Witness for C7: with no step run, the gain is exactly 1. -/
theorem make_gains_identity_witness :
    make_gains ⟨none, none, none, fun _ _ => 0⟩ 0 0 0 0 = 1 :=
  (make_gains_identity ⟨none, none, none, fun _ _ => 0⟩ 0 0 0 0).1
    rfl rfl rfl

end HeraCal

